import Mathlib

/-!
Verification of the normalization formulas in `Normalizations.ipynb`.

The notebook recomputes five PyTorch normalization primitives (batch, layer,
instance, group and weight normalization) from their textbook formulas using
elementary tensor arithmetic.  Tensors of a fixed shape are embedded as
functions out of `Fin`-products into `ℝ`; `torch.mean`/`torch.var` over a
dimension set become finite sums divided by the element count, with the
`keepdim=True` singleton dimensions embedded as `Fin 1` arguments, and the
subsequent broadcast against the full-shape tensor embedded as indexing the
statistics at index `0` of each kept dimension.
-/

noncomputable section

/-- The epsilon `1e-5` added to the variance before the square root in every
normalization cell of the notebook. -/
def eps : ℝ := 1e-5

namespace BN

variable {N C H W : ℕ}

/-- `channel_mean = torch.mean(data, keepdim=True, dim=(0,2,3))` on a tensor of
shape `(N, C, H, W)`: the result has keepdim shape `(1, C, 1, 1)` and entry
`(sum over batch and spatial positions) / (N*H*W)` at channel `c`. -/
def channel_mean (x : Fin N → Fin C → Fin H → Fin W → ℝ) :
    Fin 1 → Fin C → Fin 1 → Fin 1 → ℝ :=
  fun _ c _ _ => (∑ n, ∑ h, ∑ w, x n c h w) / (N * H * W)

/-- `channel_var = torch.var(data, dim=(0,2,3), unbiased=False, keepdim=True)`:
the biased (divide-by-N) variance over the batch and spatial dimensions,
keepdim shape `(1, C, 1, 1)`. -/
def channel_var (x : Fin N → Fin C → Fin H → Fin W → ℝ) :
    Fin 1 → Fin C → Fin 1 → Fin 1 → ℝ :=
  fun _ c _ _ =>
    (∑ n, ∑ h, ∑ w, (x n c h w - channel_mean x 0 c 0 0) ^ 2) / (N * H * W)

/-- `our_BN = (data - channel_mean)/torch.sqrt(channel_var+1e-5)`: the
broadcast of the keepdim statistics against `data` reads them at index `0`
of every kept singleton dimension. -/
def our_BN (x : Fin N → Fin C → Fin H → Fin W → ℝ) :
    Fin N → Fin C → Fin H → Fin W → ℝ :=
  fun n c h w =>
    (x n c h w - channel_mean x 0 c 0 0) / Real.sqrt (channel_var x 0 c 0 0 + eps)

/-- Modelled from the spec: the optional affine step of `Normalize`
(`* scale + shift`, broadcast per channel).  The notebook constructs
`nn.BatchNorm2d(num_channels)` with learnable parameters but exercises only
the `affine=False` path in its hand-written formula, so the affine step is
taken from the spec's words. -/
def our_BN_affine (x : Fin N → Fin C → Fin H → Fin W → ℝ)
    (scale shift : Fin C → ℝ) : Fin N → Fin C → Fin H → Fin W → ℝ :=
  fun n c h w => our_BN x n c h w * scale c + shift c

end BN

namespace LN

variable {N L C : ℕ}

/-- `input_mean = torch.mean(input_data, dim=-1, keepdim=True)` on a tensor of
shape `(N, L, C)`: keepdim shape `(N, L, 1)`. -/
def input_mean (x : Fin N → Fin L → Fin C → ℝ) : Fin N → Fin L → Fin 1 → ℝ :=
  fun n l _ => (∑ c, x n l c) / C

/-- `input_var = torch.var(input_data, dim=-1, keepdim=True, unbiased=False)`:
biased variance over the embedding dimension, keepdim shape `(N, L, 1)`. -/
def input_var (x : Fin N → Fin L → Fin C → ℝ) : Fin N → Fin L → Fin 1 → ℝ :=
  fun n l _ => (∑ c, (x n l c - input_mean x n l 0) ^ 2) / C

/-- `layerNorm_output = (input_data-input_mean)/torch.sqrt(input_var+1e-5)`. -/
def layerNorm_output (x : Fin N → Fin L → Fin C → ℝ) :
    Fin N → Fin L → Fin C → ℝ :=
  fun n l c =>
    (x n l c - input_mean x n l 0) / Real.sqrt (input_var x n l 0 + eps)

end LN

namespace IN

variable {N L C : ℕ}

/-- `input_mean = torch.mean(input_data, dim=1, keepdim=True)` on a tensor of
shape `(N, L, C)`: keepdim shape `(N, 1, C)`. -/
def input_mean (x : Fin N → Fin L → Fin C → ℝ) : Fin N → Fin 1 → Fin C → ℝ :=
  fun n _ c => (∑ l, x n l c) / L

/-- `input_var = torch.var(input_data, dim=1, keepdim=True, unbiased=False)`:
biased variance over the time dimension, keepdim shape `(N, 1, C)`. -/
def input_var (x : Fin N → Fin L → Fin C → ℝ) : Fin N → Fin 1 → Fin C → ℝ :=
  fun n _ c => (∑ l, (x n l c - input_mean x n 0 c) ^ 2) / L

/-- `instance_normalization_math = (input_data-input_mean)/torch.sqrt(input_var+1e-5)`. -/
def instance_normalization_math (x : Fin N → Fin L → Fin C → ℝ) :
    Fin N → Fin L → Fin C → ℝ :=
  fun n l c =>
    (x n l c - input_mean x n 0 c) / Real.sqrt (input_var x n 0 c + eps)

end IN

namespace GN

variable {N L C : ℕ}

/-- The chunk sizes produced by `torch.split(input_data, num_groups, dim=-1)` on
an axis of size `C`: `torch.split`'s second argument is a chunk LENGTH, so the
axis is cut into consecutive chunks of size `num_groups`, the last one smaller
when `num_groups` does not divide `C`. -/
def torchSplitSizes (C g : ℕ) : List ℕ :=
  List.replicate (C / g) g ++ (if C % g = 0 then [] else [C % g])

/-- The channel indices belonging to the `q`-th chunk of
`torch.split(·, g, dim=-1)`: chunks are consecutive blocks of length `g`, so
channel `c` lies in chunk `c / g`. -/
def chunkChannels (C g q : ℕ) : Finset (Fin C) :=
  Finset.univ.filter (fun c => c.val / g = q)

/-- `input_mean = torch.mean(group, dim=(1,2), keepdim=True)` for the `q`-th
chunk of the split input: the chunk has shape `(N, L, |chunk q|)`, so the mean
divides by `L * |chunk q|`. -/
def input_mean (x : Fin N → Fin L → Fin C → ℝ) (g : ℕ) (n : Fin N) (q : ℕ) : ℝ :=
  (∑ l, ∑ c ∈ chunkChannels C g q, x n l c) / (L * (chunkChannels C g q).card)

/-- `input_var = torch.var(group, dim=(1,2), keepdim=True, unbiased=False)` for
the `q`-th chunk: the biased variance over the time axis and the chunk's
channels. -/
def input_var (x : Fin N → Fin L → Fin C → ℝ) (g : ℕ) (n : Fin N) (q : ℕ) : ℝ :=
  (∑ l, ∑ c ∈ chunkChannels C g q, (x n l c - input_mean x g n q) ^ 2) /
    (L * (chunkChannels C g q).card)

/-- `group_norm_output = torch.cat(output_list, dim=-1)` where each list entry
is `(group-input_mean)/torch.sqrt(input_var+1e-5)` for one chunk of the split:
since the chunks are consecutive, concatenating them back along the channel
axis places channel `c` in chunk `c / g`. -/
def group_norm_output (x : Fin N → Fin L → Fin C → ℝ) (g : ℕ) :
    Fin N → Fin L → Fin C → ℝ :=
  fun n l c =>
    (x n l c - input_mean x g n (c.val / g)) /
      Real.sqrt (input_var x g n (c.val / g) + eps)

end GN

namespace WN

variable {m n B : ℕ}

/-- `weight_magnitude`: the per-row L2 norms
`[linear.weight[i,:].norm() for i in …]` reshaped to `(m, 1)`. -/
def weight_magnitude (W : Fin m → Fin n → ℝ) : Fin m → Fin 1 → ℝ :=
  fun i _ => Real.sqrt (∑ j, W i j ^ 2)

/-- `weight_direction = linear.weight/weight_magnitude`: each row divided
(broadcast of the `(m,1)` magnitude against the `(m,n)` weight) by its own
L2 norm. -/
def weight_direction (W : Fin m → Fin n → ℝ) : Fin m → Fin n → ℝ :=
  fun i j => W i j / weight_magnitude W i 0

/-- `weight_direction*weight_magnitude`: the elementwise broadcast product
reconstructing the weight from its decomposition. -/
def wn_weight (W : Fin m → Fin n → ℝ) : Fin m → Fin n → ℝ :=
  fun i j => weight_direction W i j * weight_magnitude W i 0

/-- `data @ weight.T`: the linear layer without bias applied to a batch of
row vectors (`linear(data)` and `data @ (weight_direction*weight_magnitude).T`
in the notebook). -/
def linear_output (data : Fin B → Fin n → ℝ) (W : Fin m → Fin n → ℝ) :
    Fin B → Fin m → ℝ :=
  fun p i => ∑ j, data p j * W i j

end WN

namespace Spec

/-- Modelled from the spec: the shape of the reduction statistics of
`Normalize(tensor, axes, …)` — the input dimensions along the complement of
`axes` (the spec's "per-channel mean/var vectors of shape (3,)" example). -/
def statsShape (shape axes : List ℕ) : List ℕ :=
  (shape.enum.filter (fun p => !(axes.contains p.1))).map (fun p => p.2)

/-- Modelled from the spec: the declared reduction axes are compatible with
the input tensor when each one names an existing dimension. -/
def validAxes (shape axes : List ℕ) : Bool :=
  axes.all (fun a => a < shape.length)

/-- Modelled from the spec: the optional affine parameters `(scale, shift)`
are compatible when both are broadcastable along the complement of `axes`,
i.e. have exactly the non-reduced shape. -/
def affineOK (affine : Option (List ℕ × List ℕ)) (bshape : List ℕ) : Bool :=
  match affine with
  | none => true
  | some (s1, s2) => s1 == bshape && s2 == bshape

/-- Modelled from the spec: the shape-level behaviour of
`Normalize(tensor, axes, eps, affine?)`, which src only instantiates at fixed
shapes.  It fails fast with a descriptive shape-mismatch error on a shape
incompatibility between the tensor and the reduction axes or between the
affine parameters and the non-reduced shape, and otherwise returns the output
shape, equal to the input shape. -/
def Normalize (shape axes : List ℕ) (affine : Option (List ℕ × List ℕ)) :
    Except String (List ℕ) :=
  if !validAxes shape axes then
    .error "shape mismatch: a reduction axis is out of range for the input shape"
  else if !affineOK affine (statsShape shape axes) then
    .error "shape mismatch: affine parameters do not match the non-reduced shape"
  else
    .ok shape

end Spec

/-- A concrete `1×1×1×1` zero tensor used to instantiate the theorems. -/
def z4 : Fin 1 → Fin 1 → Fin 1 → Fin 1 → ℝ := fun _ _ _ _ => 0

/-- A concrete `1×1×1` zero tensor used to instantiate the theorems. -/
def z3 : Fin 1 → Fin 1 → Fin 1 → ℝ := fun _ _ _ => 0

/-- A concrete `1×1` all-ones weight matrix used to instantiate the
theorems. -/
def w1 : Fin 1 → Fin 1 → ℝ := fun _ _ => 1

/-! ### Helper lemmas -/

theorem eps_pos : 0 < eps := by norm_num [eps]

/-- Expanding a sum of squared deviations about an arbitrary center. -/
theorem sum_sq_dev {ι : Type} (s : Finset ι) (f : ι → ℝ) (μ : ℝ) :
    ∑ i ∈ s, (f i - μ) ^ 2
      = (∑ i ∈ s, f i ^ 2) - 2 * μ * (∑ i ∈ s, f i) + s.card * μ ^ 2 := by
  have h : ∀ i ∈ s, (f i - μ) ^ 2 = f i ^ 2 - 2 * μ * f i + μ ^ 2 :=
    fun i _ => by ring
  rw [Finset.sum_congr rfl h, Finset.sum_add_distrib, Finset.sum_sub_distrib,
    ← Finset.mul_sum, Finset.sum_const, nsmul_eq_mul]

/-- The biased (divide-by-count) variance equals the mean of squares minus the
square of the mean; this identity is specific to the population estimator
(the unbiased estimator satisfies it only after an `n/(n-1)` correction). -/
theorem pop_var_eq {ι : Type} (s : Finset ι) (f : ι → ℝ) (n : ℝ) (hn : n ≠ 0)
    (hc : (s.card : ℝ) = n) :
    (∑ i ∈ s, (f i - (∑ j ∈ s, f j) / n) ^ 2) / n
      = (∑ i ∈ s, f i ^ 2) / n - ((∑ i ∈ s, f i) / n) ^ 2 := by
  rw [sum_sq_dev, hc]
  field_simp
  ring

/-- Deviations from the mean sum to zero. -/
theorem sum_dev_zero {ι : Type} (s : Finset ι) (f : ι → ℝ) (n μ : ℝ)
    (hn : n ≠ 0) (hc : (s.card : ℝ) = n) (hμ : μ = (∑ j ∈ s, f j) / n) :
    ∑ j ∈ s, (f j - μ) = 0 := by
  rw [Finset.sum_sub_distrib, Finset.sum_const, nsmul_eq_mul, hc, hμ]
  field_simp

/-- The mean of the centered, arbitrarily rescaled values is zero. -/
theorem normalized_mean {ι : Type} (s : Finset ι) (f : ι → ℝ) (n μ r : ℝ)
    (hn : n ≠ 0) (hc : (s.card : ℝ) = n) (hμ : μ = (∑ j ∈ s, f j) / n) :
    (∑ i ∈ s, (f i - μ) / r) / n = 0 := by
  rw [← Finset.sum_div, sum_dev_zero s f n μ hn hc hμ, zero_div, zero_div]

/-- The biased variance of `(f - μ)/sqrt(v + eps)` is `v/(v + eps)`, where `μ`
and `v` are the mean and biased variance of `f`. -/
theorem normalized_var {ι : Type} (s : Finset ι) (f : ι → ℝ) (n μ v : ℝ)
    (hn : n ≠ 0) (hc : (s.card : ℝ) = n) (hμ : μ = (∑ j ∈ s, f j) / n)
    (hv : v = (∑ j ∈ s, (f j - μ) ^ 2) / n) :
    (∑ i ∈ s, ((f i - μ) / Real.sqrt (v + eps)
        - (∑ j ∈ s, (f j - μ) / Real.sqrt (v + eps)) / n) ^ 2) / n
      = v / (v + eps) := by
  have hnpos : 0 < n := by
    rcases lt_or_eq_of_le (show (0 : ℝ) ≤ (s.card : ℝ) by positivity) with h | h
    · rwa [hc] at h
    · exact absurd hc.symm (by rw [← h]; exact hn)
  have hvnonneg : 0 ≤ v := by
    rw [hv]
    exact div_nonneg (Finset.sum_nonneg fun j _ => sq_nonneg _) hnpos.le
  have hve : 0 < v + eps := by linarith [eps_pos]
  have hsum0 : (∑ j ∈ s, (f j - μ) / Real.sqrt (v + eps)) / n = 0 :=
    normalized_mean s f n μ _ hn hc hμ
  rw [hsum0]
  simp only [sub_zero, div_pow]
  rw [← Finset.sum_div, Real.sq_sqrt hve.le]
  have hS : ∑ j ∈ s, (f j - μ) ^ 2 = v * n := by
    rw [hv, div_mul_cancel₀ _ hn]
  rw [hS]
  field_simp
  ring

/-- The per-row L2 norm squared recovers the row's sum of squares. -/
theorem wn_mag_sq {m n : ℕ} (W : Fin m → Fin n → ℝ) (i : Fin m) (k : Fin 1) :
    WN.weight_magnitude W i k ^ 2 = ∑ j, W i j ^ 2 :=
  Real.sq_sqrt (Finset.sum_nonneg fun _ _ => sq_nonneg _)

/-- A row with some nonzero entry has positive L2 norm. -/
theorem wn_mag_pos {m n : ℕ} (W : Fin m → Fin n → ℝ) (i : Fin m) (k : Fin 1)
    (hrow : ∃ j, W i j ≠ 0) : 0 < WN.weight_magnitude W i k := by
  rcases hrow with ⟨j, hj⟩
  exact Real.sqrt_pos.mpr <| Finset.sum_pos'
    (fun j' _ => sq_nonneg _) ⟨j, Finset.mem_univ j, by positivity⟩

/-- Reconstruction of one entry: direction times magnitude gives the weight
back, provided the row is not all-zero. -/
theorem wn_reconstruct {m n : ℕ} (W : Fin m → Fin n → ℝ) (i : Fin m)
    (j : Fin n) (hrow : ∃ k, W i k ≠ 0) :
    WN.weight_direction W i j * WN.weight_magnitude W i 0 = W i j := by
  unfold WN.weight_direction
  exact div_mul_cancel₀ _ (wn_mag_pos W i 0 hrow).ne'

/-- Cardinality of the index set reduced over by batch normalization. -/
theorem card_prod3 {N H W : ℕ} :
    ((Finset.univ : Finset (Fin N × Fin H × Fin W)).card : ℝ) = (N : ℝ) * H * W := by
  simp [Finset.card_univ]
  ring

/-- Batch normalization's biased variance as mean of squares minus squared
mean. -/
theorem bn_var_identity {N C H W : ℕ} (hn : (N : ℝ) * H * W ≠ 0)
    (x : Fin N → Fin C → Fin H → Fin W → ℝ) (a b d : Fin 1) (c : Fin C) :
    BN.channel_var x a c b d
      = (∑ n, ∑ h, ∑ w, x n c h w ^ 2) / ((N : ℝ) * H * W)
        - BN.channel_mean x a c b d ^ 2 := by
  simpa [BN.channel_var, BN.channel_mean, Fintype.sum_prod_type] using
    pop_var_eq (Finset.univ : Finset (Fin N × Fin H × Fin W))
      (fun p => x p.1 c p.2.1 p.2.2) ((N : ℝ) * H * W) hn card_prod3

/-- The recomputed batch normalization output has zero mean over the batch and
spatial axes. -/
theorem bn_out_mean_zero {N C H W : ℕ} (hn : (N : ℝ) * H * W ≠ 0)
    (x : Fin N → Fin C → Fin H → Fin W → ℝ) (a b d : Fin 1) (c : Fin C) :
    BN.channel_mean (BN.our_BN x) a c b d = 0 := by
  simpa [BN.channel_mean, BN.our_BN, BN.channel_var, Fintype.sum_prod_type] using
    normalized_mean (Finset.univ : Finset (Fin N × Fin H × Fin W))
      (fun p => x p.1 c p.2.1 p.2.2) ((N : ℝ) * H * W)
      ((∑ p : Fin N × Fin H × Fin W, x p.1 c p.2.1 p.2.2) / ((N : ℝ) * H * W))
      (Real.sqrt (BN.channel_var x 0 c 0 0 + eps)) hn card_prod3 rfl

/-- The recomputed batch normalization output has biased variance
`v/(v + eps)` over the batch and spatial axes. -/
theorem bn_out_var {N C H W : ℕ} (hn : (N : ℝ) * H * W ≠ 0)
    (x : Fin N → Fin C → Fin H → Fin W → ℝ) (a b d : Fin 1) (c : Fin C) :
    BN.channel_var (BN.our_BN x) a c b d
      = BN.channel_var x a c b d / (BN.channel_var x a c b d + eps) := by
  simpa [BN.channel_var, BN.channel_mean, BN.our_BN, Fintype.sum_prod_type] using
    normalized_var (Finset.univ : Finset (Fin N × Fin H × Fin W))
      (fun p => x p.1 c p.2.1 p.2.2) ((N : ℝ) * H * W)
      ((∑ p : Fin N × Fin H × Fin W, x p.1 c p.2.1 p.2.2) / ((N : ℝ) * H * W))
      (BN.channel_var x 0 c 0 0) hn card_prod3 rfl
      (by simp [BN.channel_var, BN.channel_mean, Fintype.sum_prod_type])

/-- Cardinality of a full `Fin` index set, as a real. -/
theorem card_fin_real {C : ℕ} :
    (((Finset.univ : Finset (Fin C)).card : ℕ) : ℝ) = (C : ℝ) := by simp

/-- Layer normalization's biased variance as mean of squares minus squared
mean. -/
theorem ln_var_identity {N L C : ℕ} (hn : (C : ℝ) ≠ 0)
    (x : Fin N → Fin L → Fin C → ℝ) (n : Fin N) (l : Fin L) (k : Fin 1) :
    LN.input_var x n l k
      = (∑ c, x n l c ^ 2) / (C : ℝ) - LN.input_mean x n l k ^ 2 := by
  simpa [LN.input_var, LN.input_mean] using
    pop_var_eq (Finset.univ : Finset (Fin C)) (fun c => x n l c) (C : ℝ)
      hn card_fin_real

/-- The recomputed layer normalization output has zero mean over the embedding
axis. -/
theorem ln_out_mean_zero {N L C : ℕ} (hn : (C : ℝ) ≠ 0)
    (x : Fin N → Fin L → Fin C → ℝ) (n : Fin N) (l : Fin L) (k : Fin 1) :
    LN.input_mean (LN.layerNorm_output x) n l k = 0 := by
  simpa [LN.input_mean, LN.layerNorm_output, LN.input_var] using
    normalized_mean (Finset.univ : Finset (Fin C)) (fun c => x n l c) (C : ℝ)
      ((∑ c, x n l c) / (C : ℝ))
      (Real.sqrt (LN.input_var x n l 0 + eps)) hn card_fin_real rfl

/-- The recomputed layer normalization output has biased variance
`v/(v + eps)` over the embedding axis. -/
theorem ln_out_var {N L C : ℕ} (hn : (C : ℝ) ≠ 0)
    (x : Fin N → Fin L → Fin C → ℝ) (n : Fin N) (l : Fin L) (k : Fin 1) :
    LN.input_var (LN.layerNorm_output x) n l k
      = LN.input_var x n l k / (LN.input_var x n l k + eps) := by
  simpa [LN.input_var, LN.input_mean, LN.layerNorm_output] using
    normalized_var (Finset.univ : Finset (Fin C)) (fun c => x n l c) (C : ℝ)
      ((∑ c, x n l c) / (C : ℝ)) (LN.input_var x n l 0) hn card_fin_real rfl
      (by simp [LN.input_var, LN.input_mean])

/-- Instance normalization's biased variance as mean of squares minus squared
mean. -/
theorem in_var_identity {N L C : ℕ} (hn : (L : ℝ) ≠ 0)
    (x : Fin N → Fin L → Fin C → ℝ) (n : Fin N) (k : Fin 1) (c : Fin C) :
    IN.input_var x n k c
      = (∑ l, x n l c ^ 2) / (L : ℝ) - IN.input_mean x n k c ^ 2 := by
  simpa [IN.input_var, IN.input_mean] using
    pop_var_eq (Finset.univ : Finset (Fin L)) (fun l => x n l c) (L : ℝ)
      hn card_fin_real

/-- The recomputed instance normalization output has zero mean over the time
axis. -/
theorem in_out_mean_zero {N L C : ℕ} (hn : (L : ℝ) ≠ 0)
    (x : Fin N → Fin L → Fin C → ℝ) (n : Fin N) (k : Fin 1) (c : Fin C) :
    IN.input_mean (IN.instance_normalization_math x) n k c = 0 := by
  simpa [IN.input_mean, IN.instance_normalization_math, IN.input_var] using
    normalized_mean (Finset.univ : Finset (Fin L)) (fun l => x n l c) (L : ℝ)
      ((∑ l, x n l c) / (L : ℝ))
      (Real.sqrt (IN.input_var x n 0 c + eps)) hn card_fin_real rfl

/-- The recomputed instance normalization output has biased variance
`v/(v + eps)` over the time axis. -/
theorem in_out_var {N L C : ℕ} (hn : (L : ℝ) ≠ 0)
    (x : Fin N → Fin L → Fin C → ℝ) (n : Fin N) (k : Fin 1) (c : Fin C) :
    IN.input_var (IN.instance_normalization_math x) n k c
      = IN.input_var x n k c / (IN.input_var x n k c + eps) := by
  simpa [IN.input_var, IN.input_mean, IN.instance_normalization_math] using
    normalized_var (Finset.univ : Finset (Fin L)) (fun l => x n l c) (L : ℝ)
      ((∑ l, x n l c) / (L : ℝ)) (IN.input_var x n 0 c) hn card_fin_real rfl
      (by simp [IN.input_var, IN.input_mean])

/-- Cardinality of the index set reduced over by one group of group
normalization. -/
theorem card_gn {L C g q : ℕ} :
    ((((Finset.univ : Finset (Fin L)) ×ˢ GN.chunkChannels C g q).card : ℕ) : ℝ)
      = (L : ℝ) * ((GN.chunkChannels C g q).card : ℝ) := by
  simp [Finset.card_product]

/-- Group normalization's biased variance as mean of squares minus squared
mean, for the chunk containing a given channel. -/
theorem gn_var_identity {N L C : ℕ} (g q : ℕ)
    (hn : (L : ℝ) * ((GN.chunkChannels C g q).card : ℝ) ≠ 0)
    (x : Fin N → Fin L → Fin C → ℝ) (n : Fin N) :
    GN.input_var x g n q
      = (∑ l, ∑ c ∈ GN.chunkChannels C g q, x n l c ^ 2)
          / ((L : ℝ) * ((GN.chunkChannels C g q).card : ℝ))
        - GN.input_mean x g n q ^ 2 := by
  simpa [GN.input_var, GN.input_mean, Finset.sum_product] using
    pop_var_eq ((Finset.univ : Finset (Fin L)) ×ˢ GN.chunkChannels C g q)
      (fun p => x n p.1 p.2) ((L : ℝ) * ((GN.chunkChannels C g q).card : ℝ))
      hn card_gn

/-- Membership in a split chunk determines the chunk index. -/
theorem gn_chunk_mem {C g q : ℕ} {c : Fin C} (hc : c ∈ GN.chunkChannels C g q) :
    c.val / g = q := by
  simpa [GN.chunkChannels] using hc

/-- On the channels of chunk `q`, the concatenated group normalization output
is the chunk's own normalization. -/
theorem gn_out_on_chunk {N L C : ℕ} (x : Fin N → Fin L → Fin C → ℝ)
    (g q : ℕ) (n : Fin N) (l : Fin L) {c : Fin C}
    (hc : c ∈ GN.chunkChannels C g q) :
    GN.group_norm_output x g n l c
      = (x n l c - GN.input_mean x g n q)
          / Real.sqrt (GN.input_var x g n q + eps) := by
  simp [GN.group_norm_output, gn_chunk_mem hc]

/-- The recomputed group normalization output has zero mean over the time axis
and the channels of any chunk. -/
theorem gn_out_mean_zero {N L C : ℕ} (g q : ℕ)
    (hn : (L : ℝ) * ((GN.chunkChannels C g q).card : ℝ) ≠ 0)
    (x : Fin N → Fin L → Fin C → ℝ) (n : Fin N) :
    GN.input_mean (GN.group_norm_output x g) g n q = 0 := by
  have hrw : ∑ l, ∑ c ∈ GN.chunkChannels C g q, GN.group_norm_output x g n l c
      = ∑ p ∈ (Finset.univ : Finset (Fin L)) ×ˢ GN.chunkChannels C g q,
          (x n p.1 p.2 - GN.input_mean x g n q)
            / Real.sqrt (GN.input_var x g n q + eps) := by
    rw [Finset.sum_product]
    exact Finset.sum_congr rfl fun l _ => Finset.sum_congr rfl
      fun c hc => gn_out_on_chunk x g q n l hc
  have hμ : GN.input_mean x g n q
      = (∑ p ∈ (Finset.univ : Finset (Fin L)) ×ˢ GN.chunkChannels C g q,
          x n p.1 p.2)
        / ((L : ℝ) * ((GN.chunkChannels C g q).card : ℝ)) := by
    simp [GN.input_mean, Finset.sum_product]
  have habs := normalized_mean
      ((Finset.univ : Finset (Fin L)) ×ˢ GN.chunkChannels C g q)
      (fun p => x n p.1 p.2) ((L : ℝ) * ((GN.chunkChannels C g q).card : ℝ))
      (GN.input_mean x g n q) (Real.sqrt (GN.input_var x g n q + eps))
      hn card_gn hμ
  show (∑ l, ∑ c ∈ GN.chunkChannels C g q, GN.group_norm_output x g n l c)
      / ((L : ℝ) * ((GN.chunkChannels C g q).card : ℝ)) = 0
  rw [hrw]
  simpa using habs

/-- The recomputed group normalization output has biased variance
`v/(v + eps)` over the time axis and the channels of any chunk. -/
theorem gn_out_var {N L C : ℕ} (g q : ℕ)
    (hn : (L : ℝ) * ((GN.chunkChannels C g q).card : ℝ) ≠ 0)
    (x : Fin N → Fin L → Fin C → ℝ) (n : Fin N) :
    GN.input_var (GN.group_norm_output x g) g n q
      = GN.input_var x g n q / (GN.input_var x g n q + eps) := by
  have hμ : GN.input_mean x g n q
      = (∑ p ∈ (Finset.univ : Finset (Fin L)) ×ˢ GN.chunkChannels C g q,
          x n p.1 p.2)
        / ((L : ℝ) * ((GN.chunkChannels C g q).card : ℝ)) := by
    simp [GN.input_mean, Finset.sum_product]
  have hv : GN.input_var x g n q
      = (∑ p ∈ (Finset.univ : Finset (Fin L)) ×ˢ GN.chunkChannels C g q,
          (x n p.1 p.2 - GN.input_mean x g n q) ^ 2)
        / ((L : ℝ) * ((GN.chunkChannels C g q).card : ℝ)) := by
    simp [GN.input_var, Finset.sum_product]
  have habs := normalized_var
      ((Finset.univ : Finset (Fin L)) ×ˢ GN.chunkChannels C g q)
      (fun p => x n p.1 p.2) ((L : ℝ) * ((GN.chunkChannels C g q).card : ℝ))
      (GN.input_mean x g n q) (GN.input_var x g n q) hn card_gn hμ hv
  have hmean_out : GN.input_mean (GN.group_norm_output x g) g n q
      = (∑ p ∈ (Finset.univ : Finset (Fin L)) ×ˢ GN.chunkChannels C g q,
          (x n p.1 p.2 - GN.input_mean x g n q)
            / Real.sqrt (GN.input_var x g n q + eps))
        / ((L : ℝ) * ((GN.chunkChannels C g q).card : ℝ)) := by
    show (∑ l, ∑ c ∈ GN.chunkChannels C g q, GN.group_norm_output x g n l c)
        / ((L : ℝ) * ((GN.chunkChannels C g q).card : ℝ)) = _
    rw [Finset.sum_product]
    exact congrArg (fun t => t / ((L : ℝ) * ((GN.chunkChannels C g q).card : ℝ)))
      (Finset.sum_congr rfl fun l _ => Finset.sum_congr rfl
        fun c hc => gn_out_on_chunk x g q n l hc)
  have hrw2 : ∑ l, ∑ c ∈ GN.chunkChannels C g q,
        (GN.group_norm_output x g n l c
          - GN.input_mean (GN.group_norm_output x g) g n q) ^ 2
      = ∑ p ∈ (Finset.univ : Finset (Fin L)) ×ˢ GN.chunkChannels C g q,
          ((x n p.1 p.2 - GN.input_mean x g n q)
              / Real.sqrt (GN.input_var x g n q + eps)
            - GN.input_mean (GN.group_norm_output x g) g n q) ^ 2 := by
    rw [Finset.sum_product]
    exact Finset.sum_congr rfl fun l _ => Finset.sum_congr rfl
      fun c hc => by rw [gn_out_on_chunk x g q n l hc]
  show (∑ l, ∑ c ∈ GN.chunkChannels C g q,
        (GN.group_norm_output x g n l c
          - GN.input_mean (GN.group_norm_output x g) g n q) ^ 2)
      / ((L : ℝ) * ((GN.chunkChannels C g q).card : ℝ))
    = GN.input_var x g n q / (GN.input_var x g n q + eps)
  rw [hrw2, hmean_out]
  simpa using habs

/-- Every variant's biased variance is nonnegative: batch normalization. -/
theorem bn_var_nonneg {N C H W : ℕ} (x : Fin N → Fin C → Fin H → Fin W → ℝ)
    (a b d : Fin 1) (c : Fin C) : 0 ≤ BN.channel_var x a c b d :=
  div_nonneg
    (Finset.sum_nonneg fun _ _ => Finset.sum_nonneg fun _ _ =>
      Finset.sum_nonneg fun _ _ => sq_nonneg _)
    (by positivity)

/-- Every variant's biased variance is nonnegative: layer normalization. -/
theorem ln_var_nonneg {N L C : ℕ} (x : Fin N → Fin L → Fin C → ℝ)
    (n : Fin N) (l : Fin L) (k : Fin 1) : 0 ≤ LN.input_var x n l k :=
  div_nonneg (Finset.sum_nonneg fun _ _ => sq_nonneg _) (by positivity)

/-- Every variant's biased variance is nonnegative: instance normalization. -/
theorem in_var_nonneg {N L C : ℕ} (x : Fin N → Fin L → Fin C → ℝ)
    (n : Fin N) (k : Fin 1) (c : Fin C) : 0 ≤ IN.input_var x n k c :=
  div_nonneg (Finset.sum_nonneg fun _ _ => sq_nonneg _) (by positivity)

/-- Every variant's biased variance is nonnegative: group normalization. -/
theorem gn_var_nonneg {N L C : ℕ} (x : Fin N → Fin L → Fin C → ℝ)
    (g q : ℕ) (n : Fin N) : 0 ≤ GN.input_var x g n q :=
  div_nonneg
    (Finset.sum_nonneg fun _ _ => Finset.sum_nonneg fun _ _ => sq_nonneg _)
    (by positivity)

/-- The number of chunks `torch.split` produces is `⌈C / g⌉`. -/
theorem torchSplitSizes_length (C g : ℕ) (hg : 0 < g) :
    (GN.torchSplitSizes C g).length = (C + g - 1) / g := by
  unfold GN.torchSplitSizes
  have hd := Nat.div_add_mod C g
  by_cases h : C % g = 0
  · rw [if_pos h, List.append_nil, List.length_replicate]
    symm
    apply Nat.div_eq_of_lt_le
    · have hexp : C / g * g = g * (C / g) := by ring
      omega
    · have hexp : (C / g + 1) * g = g * (C / g) + g := by ring
      omega
  · rw [if_neg h]
    simp only [List.length_append, List.length_replicate, List.length_cons,
      List.length_nil, Nat.zero_add]
    have hr : C % g < g := Nat.mod_lt _ hg
    symm
    apply Nat.div_eq_of_lt_le
    · have hexp : (C / g + 1) * g = g * (C / g) + g := by ring
      omega
    · have hexp : (C / g + 1 + 1) * g = g * (C / g) + g + g := by ring
      omega

/-- The chunks of `torch.split` cover the whole channel axis, so the
concatenated output has the input's channel count. -/
theorem torchSplitSizes_sum (C g : ℕ) : (GN.torchSplitSizes C g).sum = C := by
  unfold GN.torchSplitSizes
  by_cases h : C % g = 0
  · rw [if_pos h, List.append_nil, List.sum_replicate, smul_eq_mul]
    exact Nat.div_mul_cancel (Nat.dvd_of_mod_eq_zero h)
  · rw [if_neg h]
    simp only [List.sum_append, List.sum_replicate, smul_eq_mul,
      List.sum_cons, List.sum_nil, Nat.add_zero]
    have hd := Nat.div_add_mod C g
    have hexp : C / g * g = g * (C / g) := by ring
    omega

/-- The split-by-length chunking coincides with `g` equal groups exactly when
the channel count is `g * g`. -/
theorem torchSplitSizes_replicate_iff (C g : ℕ) (hg : 0 < g) :
    (∃ s, GN.torchSplitSizes C g = List.replicate g s) ↔ C = g * g := by
  constructor
  · rintro ⟨s, hs⟩
    unfold GN.torchSplitSizes at hs
    by_cases h : C % g = 0
    · rw [if_pos h, List.append_nil] at hs
      have hlen : C / g = g := by simpa using congrArg List.length hs
      calc C = g * (C / g) := (Nat.mul_div_cancel' (Nat.dvd_of_mod_eq_zero h)).symm
        _ = g * g := by rw [hlen]
    · rw [if_neg h] at hs
      exfalso
      have hs1 : C % g = s :=
        List.eq_of_mem_replicate (hs ▸ List.mem_append_right _ (List.mem_singleton_self _))
      by_cases hq : 0 < C / g
      · have hs2 : g = s :=
          List.eq_of_mem_replicate
            (hs ▸ List.mem_append_left _ (List.mem_replicate.mpr ⟨hq.ne', rfl⟩))
        exact absurd (hs1.trans hs2.symm) (Nat.mod_lt _ hg).ne
      · have hq0 : C / g = 0 := Nat.le_zero.mp (Nat.not_lt.mp hq)
        rw [hq0, List.replicate_zero, List.nil_append] at hs
        have hlen : 1 = g := by simpa using congrArg List.length hs
        rw [← hlen] at h
        exact h (Nat.mod_one C)
  · intro hCg
    refine ⟨g, ?_⟩
    have hmod : C % g = 0 := by rw [hCg]; exact Nat.mul_mod_right g g
    unfold GN.torchSplitSizes
    rw [if_pos hmod, List.append_nil, hCg, Nat.mul_div_cancel_left g hg]

/-! ### Claim theorems -/

/-- C1: `Normalize` returns a tensor of the same shape as the input whose
every element is `(x - mean_axes(x))/sqrt(var_axes(x) + eps)` with the
statistics broadcast back over the reduced axes, then optionally
`* scale + shift`; instantiated by the notebook's batch, layer and instance
normalization formulas (shape preservation is carried by the index types). -/
theorem normalize_elementwise_formula :
    (∀ (N C H W : ℕ) (x : Fin N → Fin C → Fin H → Fin W → ℝ)
        (n : Fin N) (c : Fin C) (h : Fin H) (w : Fin W),
      BN.our_BN x n c h w
        = (x n c h w - (∑ n', ∑ h', ∑ w', x n' c h' w') / ((N : ℝ) * H * W))
            / Real.sqrt
              ((∑ n', ∑ h', ∑ w',
                  (x n' c h' w'
                    - (∑ n'', ∑ h'', ∑ w'', x n'' c h'' w'')
                        / ((N : ℝ) * H * W)) ^ 2)
                  / ((N : ℝ) * H * W) + eps)) ∧
    (∀ (N C H W : ℕ) (x : Fin N → Fin C → Fin H → Fin W → ℝ)
        (scale shift : Fin C → ℝ)
        (n : Fin N) (c : Fin C) (h : Fin H) (w : Fin W),
      BN.our_BN_affine x scale shift n c h w
        = BN.our_BN x n c h w * scale c + shift c) ∧
    (∀ (N L C : ℕ) (x : Fin N → Fin L → Fin C → ℝ)
        (n : Fin N) (l : Fin L) (c : Fin C),
      LN.layerNorm_output x n l c
        = (x n l c - (∑ c', x n l c') / (C : ℝ))
            / Real.sqrt
              ((∑ c', (x n l c' - (∑ c'', x n l c'') / (C : ℝ)) ^ 2) / (C : ℝ)
                + eps)) ∧
    (∀ (N L C : ℕ) (x : Fin N → Fin L → Fin C → ℝ)
        (n : Fin N) (l : Fin L) (c : Fin C),
      IN.instance_normalization_math x n l c
        = (x n l c - (∑ l', x n l' c) / (L : ℝ))
            / Real.sqrt
              ((∑ l', (x n l' c - (∑ l'', x n l'' c) / (L : ℝ)) ^ 2) / (L : ℝ)
                + eps)) :=
  ⟨fun _ _ _ _ _ _ _ _ _ => rfl, fun _ _ _ _ _ _ _ _ _ _ _ => rfl,
   fun _ _ _ _ _ _ _ => rfl, fun _ _ _ _ _ _ _ => rfl⟩

/-- C2: before any affine step the normalized output has exact mean `0` and
exact variance `v/(v + eps)` along the reduction axes, for every variant,
whenever the reduced axes contain at least one element. -/
theorem normalize_output_standardized :
    (∀ (N C H W : ℕ) (x : Fin N → Fin C → Fin H → Fin W → ℝ),
      0 < N → 0 < H → 0 < W →
      ∀ (a b d : Fin 1) (c : Fin C),
        BN.channel_mean (BN.our_BN x) a c b d = 0 ∧
        BN.channel_var (BN.our_BN x) a c b d
          = BN.channel_var x a c b d / (BN.channel_var x a c b d + eps)) ∧
    (∀ (N L C : ℕ) (x : Fin N → Fin L → Fin C → ℝ), 0 < C →
      ∀ (n : Fin N) (l : Fin L) (k : Fin 1),
        LN.input_mean (LN.layerNorm_output x) n l k = 0 ∧
        LN.input_var (LN.layerNorm_output x) n l k
          = LN.input_var x n l k / (LN.input_var x n l k + eps)) ∧
    (∀ (N L C : ℕ) (x : Fin N → Fin L → Fin C → ℝ), 0 < L →
      ∀ (n : Fin N) (k : Fin 1) (c : Fin C),
        IN.input_mean (IN.instance_normalization_math x) n k c = 0 ∧
        IN.input_var (IN.instance_normalization_math x) n k c
          = IN.input_var x n k c / (IN.input_var x n k c + eps)) ∧
    (∀ (N L C g q : ℕ) (x : Fin N → Fin L → Fin C → ℝ), 0 < L →
      (GN.chunkChannels C g q).Nonempty →
      ∀ n : Fin N,
        GN.input_mean (GN.group_norm_output x g) g n q = 0 ∧
        GN.input_var (GN.group_norm_output x g) g n q
          = GN.input_var x g n q / (GN.input_var x g n q + eps)) := by
  refine ⟨?_, ?_, ?_, ?_⟩
  · intro N C H W x hN hH hW a b d c
    have h1 : (0 : ℝ) < N := by exact_mod_cast hN
    have h2 : (0 : ℝ) < H := by exact_mod_cast hH
    have h3 : (0 : ℝ) < W := by exact_mod_cast hW
    have hn : (N : ℝ) * H * W ≠ 0 := (mul_pos (mul_pos h1 h2) h3).ne'
    exact ⟨bn_out_mean_zero hn x a b d c, bn_out_var hn x a b d c⟩
  · intro N L C x hC n l k
    have hn : (C : ℝ) ≠ 0 := by exact_mod_cast hC.ne'
    exact ⟨ln_out_mean_zero hn x n l k, ln_out_var hn x n l k⟩
  · intro N L C x hL n k c
    have hn : (L : ℝ) ≠ 0 := by exact_mod_cast hL.ne'
    exact ⟨in_out_mean_zero hn x n k c, in_out_var hn x n k c⟩
  · intro N L C g q x hL hne n
    have h1 : (0 : ℝ) < L := by exact_mod_cast hL
    have h2 : (0 : ℝ) < ((GN.chunkChannels C g q).card : ℝ) := by
      exact_mod_cast Finset.card_pos.mpr hne
    have hn : (L : ℝ) * ((GN.chunkChannels C g q).card : ℝ) ≠ 0 :=
      (mul_pos h1 h2).ne'
    exact ⟨gn_out_mean_zero g q hn x n, gn_out_var g q hn x n⟩

/-- Witness for C2 at concrete `1×1×1(×1)` zero tensors. -/
theorem normalize_output_standardized_witness :
    BN.channel_mean (BN.our_BN z4) 0 0 0 0 = 0 ∧
    LN.input_mean (LN.layerNorm_output z3) 0 0 0 = 0 ∧
    IN.input_mean (IN.instance_normalization_math z3) 0 0 0 = 0 ∧
    GN.input_mean (GN.group_norm_output z3 1) 1 0 0 = 0 :=
  ⟨(normalize_output_standardized.1 1 1 1 1 z4
      (by decide) (by decide) (by decide) 0 0 0 0).1,
   (normalize_output_standardized.2.1 1 1 1 z3 (by decide) 0 0 0).1,
   (normalize_output_standardized.2.2.1 1 1 1 z3 (by decide) 0 0 0).1,
   (normalize_output_standardized.2.2.2 1 1 1 1 0 z3 (by decide)
      ⟨0, by decide⟩ 0).1⟩

/-- C3: every normalization variant computes the biased population variance
(mean of squares minus squared mean, the divide-by-N estimator), and adds
`eps = 1e-5` to it before the square root, so the divisor
`sqrt(var + 1e-5)` is strictly positive and never zero. -/
theorem biased_variance_eps_guard :
    eps = 1 / 100000 ∧
    (∀ (N C H W : ℕ) (x : Fin N → Fin C → Fin H → Fin W → ℝ)
        (a b d : Fin 1) (c : Fin C),
      0 < Real.sqrt (BN.channel_var x a c b d + eps) ∧
      (0 < N → 0 < H → 0 < W →
        BN.channel_var x a c b d
          = (∑ n, ∑ h, ∑ w, x n c h w ^ 2) / ((N : ℝ) * H * W)
            - BN.channel_mean x a c b d ^ 2)) ∧
    (∀ (N L C : ℕ) (x : Fin N → Fin L → Fin C → ℝ)
        (n : Fin N) (l : Fin L) (k : Fin 1),
      0 < Real.sqrt (LN.input_var x n l k + eps) ∧
      (0 < C →
        LN.input_var x n l k
          = (∑ c, x n l c ^ 2) / (C : ℝ) - LN.input_mean x n l k ^ 2)) ∧
    (∀ (N L C : ℕ) (x : Fin N → Fin L → Fin C → ℝ)
        (n : Fin N) (k : Fin 1) (c : Fin C),
      0 < Real.sqrt (IN.input_var x n k c + eps) ∧
      (0 < L →
        IN.input_var x n k c
          = (∑ l, x n l c ^ 2) / (L : ℝ) - IN.input_mean x n k c ^ 2)) ∧
    (∀ (N L C g q : ℕ) (x : Fin N → Fin L → Fin C → ℝ) (n : Fin N),
      0 < Real.sqrt (GN.input_var x g n q + eps) ∧
      (0 < L → (GN.chunkChannels C g q).Nonempty →
        GN.input_var x g n q
          = (∑ l, ∑ c ∈ GN.chunkChannels C g q, x n l c ^ 2)
              / ((L : ℝ) * ((GN.chunkChannels C g q).card : ℝ))
            - GN.input_mean x g n q ^ 2)) := by
  refine ⟨by norm_num [eps], ?_, ?_, ?_, ?_⟩
  · intro N C H W x a b d c
    refine ⟨Real.sqrt_pos.mpr ?_, ?_⟩
    · have := bn_var_nonneg x a b d c
      linarith [eps_pos]
    · intro hN hH hW
      have h1 : (0 : ℝ) < N := by exact_mod_cast hN
      have h2 : (0 : ℝ) < H := by exact_mod_cast hH
      have h3 : (0 : ℝ) < W := by exact_mod_cast hW
      exact bn_var_identity (mul_pos (mul_pos h1 h2) h3).ne' x a b d c
  · intro N L C x n l k
    refine ⟨Real.sqrt_pos.mpr ?_, ?_⟩
    · have := ln_var_nonneg x n l k
      linarith [eps_pos]
    · intro hC
      exact ln_var_identity (by exact_mod_cast hC.ne') x n l k
  · intro N L C x n k c
    refine ⟨Real.sqrt_pos.mpr ?_, ?_⟩
    · have := in_var_nonneg x n k c
      linarith [eps_pos]
    · intro hL
      exact in_var_identity (by exact_mod_cast hL.ne') x n k c
  · intro N L C g q x n
    refine ⟨Real.sqrt_pos.mpr ?_, ?_⟩
    · have := gn_var_nonneg x g q n
      linarith [eps_pos]
    · intro hL hne
      have h1 : (0 : ℝ) < L := by exact_mod_cast hL
      have h2 : (0 : ℝ) < ((GN.chunkChannels C g q).card : ℝ) := by
        exact_mod_cast Finset.card_pos.mpr hne
      exact gn_var_identity g q (mul_pos h1 h2).ne' x n

/-- Witness for C3 at concrete `1×1×1(×1)` zero tensors. -/
theorem biased_variance_eps_guard_witness :
    (BN.channel_var z4 0 0 0 0
      = (∑ n, ∑ h, ∑ w, z4 n 0 h w ^ 2)
          / (((1 : ℕ) : ℝ) * ((1 : ℕ) : ℝ) * ((1 : ℕ) : ℝ))
        - BN.channel_mean z4 0 0 0 0 ^ 2) ∧
    (LN.input_var z3 0 0 0
      = (∑ c, z3 0 0 c ^ 2) / ((1 : ℕ) : ℝ) - LN.input_mean z3 0 0 0 ^ 2) ∧
    (IN.input_var z3 0 0 0
      = (∑ l, z3 0 l 0 ^ 2) / ((1 : ℕ) : ℝ) - IN.input_mean z3 0 0 0 ^ 2) ∧
    (GN.input_var z3 1 0 0
      = (∑ l, ∑ c ∈ GN.chunkChannels 1 1 0, z3 0 l c ^ 2)
          / (((1 : ℕ) : ℝ) * ((GN.chunkChannels 1 1 0).card : ℝ))
        - GN.input_mean z3 1 0 0 ^ 2) :=
  ⟨(biased_variance_eps_guard.2.1 1 1 1 1 z4 0 0 0 0).2
      (by decide) (by decide) (by decide),
   (biased_variance_eps_guard.2.2.1 1 1 1 z3 0 0 0).2 (by decide),
   (biased_variance_eps_guard.2.2.2.1 1 1 1 z3 0 0 0).2 (by decide),
   (biased_variance_eps_guard.2.2.2.2 1 1 1 1 0 z3 0).2
      (by decide) ⟨0, by decide⟩⟩

/-- C4: for a weight matrix with nonzero rows, the broadcast product
`magnitude * direction` reconstructs the original weight exactly. -/
theorem decompose_roundtrip {m n : ℕ} (W : Fin m → Fin n → ℝ)
    (hW : ∀ i, ∃ j, W i j ≠ 0) (i : Fin m) (j : Fin n) (k : Fin 1) :
    WN.weight_magnitude W i k * WN.weight_direction W i j = W i j := by
  rw [mul_comm]
  exact wn_reconstruct W i j (hW i)

/-- Witness for C4 at the concrete `1×1` all-ones weight. -/
theorem decompose_roundtrip_witness :
    WN.weight_magnitude w1 0 0 * WN.weight_direction w1 0 0 = w1 0 0 :=
  decompose_roundtrip w1 (fun _ => ⟨0, one_ne_zero⟩) 0 0 0

/-- C5: for a weight matrix with nonzero rows, the decomposition returns the
per-row L2 norms as magnitudes and each row divided by its own magnitude as
direction, whose L2 norm is exactly `1`. -/
theorem decompose_magnitude_direction {m n : ℕ} (W : Fin m → Fin n → ℝ)
    (hW : ∀ i, ∃ j, W i j ≠ 0) (i : Fin m) :
    WN.weight_magnitude W i 0 = Real.sqrt (∑ j, W i j ^ 2) ∧
    (∀ j, WN.weight_direction W i j = W i j / WN.weight_magnitude W i 0) ∧
    Real.sqrt (∑ j, WN.weight_direction W i j ^ 2) = 1 := by
  refine ⟨rfl, fun j => rfl, ?_⟩
  have hpos := wn_mag_pos W i 0 (hW i)
  have hsum : (∑ j, W i j ^ 2) ≠ 0 := (Real.sqrt_pos.mp hpos).ne'
  have hdir : ∑ j, WN.weight_direction W i j ^ 2 = 1 := by
    simp only [WN.weight_direction, div_pow]
    rw [← Finset.sum_div, wn_mag_sq]
    exact div_self hsum
  rw [hdir, Real.sqrt_one]

/-- Witness for C5 at the concrete `1×1` all-ones weight. -/
theorem decompose_magnitude_direction_witness :
    WN.weight_magnitude w1 0 0 = Real.sqrt (∑ j, w1 0 j ^ 2) ∧
    (∀ j, WN.weight_direction w1 0 j = w1 0 j / WN.weight_magnitude w1 0 0) ∧
    Real.sqrt (∑ j, WN.weight_direction w1 0 j ^ 2) = 1 :=
  decompose_magnitude_direction w1 (fun _ => ⟨0, one_ne_zero⟩) 0

/-- C6: applying the linear transform with the weight reconstructed from the
decomposition gives the same output as the original weight. -/
theorem wn_linear_equiv {B m n : ℕ} (data : Fin B → Fin n → ℝ)
    (W : Fin m → Fin n → ℝ) (hW : ∀ i, ∃ j, W i j ≠ 0)
    (p : Fin B) (i : Fin m) :
    WN.linear_output data (WN.wn_weight W) p i
      = WN.linear_output data W p i := by
  unfold WN.linear_output
  exact Finset.sum_congr rfl fun j _ => by
    simp only [WN.wn_weight]
    rw [wn_reconstruct W i j (hW i)]

/-- Witness for C6 at concrete `1×1` all-ones data and weight. -/
theorem wn_linear_equiv_witness :
    WN.linear_output (fun (_ : Fin 1) (_ : Fin 1) => (1 : ℝ))
        (WN.wn_weight w1) 0 0
      = WN.linear_output (fun (_ : Fin 1) (_ : Fin 1) => (1 : ℝ)) w1 0 0 :=
  wn_linear_equiv _ w1 (fun _ => ⟨0, one_ne_zero⟩) 0 0

/-- C7: for the notebook's `(2,3,4,4)` input reduced over axes `(0,2,3)` the
statistics form per-channel vectors of shape `(3,)` (they depend only on the
channel index) and the output shape equals the input shape `(2,3,4,4)`. -/
theorem bn_example_shapes :
    Spec.statsShape [2, 3, 4, 4] [0, 2, 3] = [3] ∧
    Spec.Normalize [2, 3, 4, 4] [0, 2, 3] none = .ok [2, 3, 4, 4] ∧
    ∀ x : Fin 2 → Fin 3 → Fin 4 → Fin 4 → ℝ,
      ∃ mv : (Fin 3 → ℝ) × (Fin 3 → ℝ),
        ∀ (a b d : Fin 1) (c : Fin 3),
          BN.channel_mean x a c b d = mv.1 c ∧
          BN.channel_var x a c b d = mv.2 c :=
  ⟨by decide, rfl, fun x =>
    ⟨⟨fun c => BN.channel_mean x 0 c 0 0, fun c => BN.channel_var x 0 c 0 0⟩,
     fun _ _ _ _ => ⟨rfl, rfl⟩⟩⟩

/-- C8: the shape-level `Normalize` fails exactly on a shape incompatibility
between the tensor and the reduction axes or between the affine parameters
and the non-reduced shape, its error is one of the two descriptive
shape-mismatch messages, and on success the output shape is the input
shape. -/
theorem normalize_error_iff_shape_mismatch
    (shape axes : List ℕ) (affine : Option (List ℕ × List ℕ)) :
    ((∃ e, Spec.Normalize shape axes affine = .error e)
      ↔ (Spec.validAxes shape axes = false
          ∨ Spec.affineOK affine (Spec.statsShape shape axes) = false)) ∧
    (∀ e, Spec.Normalize shape axes affine = .error e →
      (e = "shape mismatch: a reduction axis is out of range for the input shape"
        ∨ e = "shape mismatch: affine parameters do not match the non-reduced shape")) ∧
    (∀ out, Spec.Normalize shape axes affine = .ok out → out = shape) := by
  by_cases h1 : Spec.validAxes shape axes = true
  · by_cases h2 : Spec.affineOK affine (Spec.statsShape shape axes) = true
    · refine ⟨?_, ?_, ?_⟩ <;> simp [Spec.Normalize, h1, h2]
    · have h2f : Spec.affineOK affine (Spec.statsShape shape axes) = false :=
        Bool.eq_false_iff.mpr h2
      refine ⟨?_, ?_, ?_⟩ <;> simp [Spec.Normalize, h1, h2f]
  · have h1f : Spec.validAxes shape axes = false := Bool.eq_false_iff.mpr h1
    refine ⟨?_, ?_, ?_⟩ <;> simp [Spec.Normalize, h1f]

/-- Witness for C8: an out-of-range axis errors descriptively; the valid
notebook shape succeeds and keeps its shape. -/
theorem normalize_error_iff_shape_mismatch_witness :
    (∃ e, Spec.Normalize [2] [1] none = Except.error e) ∧
    ([2, 3, 4, 4] : List ℕ) = [2, 3, 4, 4] ∧
    ("shape mismatch: a reduction axis is out of range for the input shape"
        = "shape mismatch: a reduction axis is out of range for the input shape"
      ∨ "shape mismatch: a reduction axis is out of range for the input shape"
        = "shape mismatch: affine parameters do not match the non-reduced shape") :=
  ⟨(normalize_error_iff_shape_mismatch [2] [1] none).1.mpr (Or.inl (by decide)),
   (normalize_error_iff_shape_mismatch [2, 3, 4, 4] [0, 2, 3] none).2.2
      [2, 3, 4, 4] rfl,
   (normalize_error_iff_shape_mismatch [2] [1] none).2.1 _ rfl⟩

/-- C9: `torch.split`'s second argument is a chunk length, so the hand-written
group normalization produces `⌈C / num_groups⌉` chunks covering the channel
axis (the concatenated output keeps the input shape), each channel normalized
with its chunk's statistics, and the chunking coincides with `num_groups`
equal groups exactly when `C = num_groups * num_groups`. -/
theorem group_split_chunk_semantics (C g : ℕ) (hg : 0 < g) :
    (GN.torchSplitSizes C g).length = (C + g - 1) / g ∧
    (GN.torchSplitSizes C g).sum = C ∧
    ((∃ s, GN.torchSplitSizes C g = List.replicate g s) ↔ C = g * g) ∧
    (∀ (N L : ℕ) (x : Fin N → Fin L → Fin C → ℝ)
        (n : Fin N) (l : Fin L) (c : Fin C),
      GN.group_norm_output x g n l c
        = (x n l c - GN.input_mean x g n (c.val / g))
            / Real.sqrt (GN.input_var x g n (c.val / g) + eps)) :=
  ⟨torchSplitSizes_length C g hg, torchSplitSizes_sum C g,
   torchSplitSizes_replicate_iff C g hg, fun _ _ _ _ _ _ => rfl⟩

/-- Witness for C9 at the notebook's `C = 4`, `num_groups = 2`. -/
theorem group_split_chunk_semantics_witness :
    (GN.torchSplitSizes 4 2).length = (4 + 2 - 1) / 2 ∧
    (GN.torchSplitSizes 4 2).sum = 4 ∧
    ((∃ s, GN.torchSplitSizes 4 2 = List.replicate 2 s) ↔ 4 = 2 * 2) :=
  ⟨(group_split_chunk_semantics 4 2 (by decide)).1,
   (group_split_chunk_semantics 4 2 (by decide)).2.1,
   (group_split_chunk_semantics 4 2 (by decide)).2.2.1⟩

/-- C10: the weight decomposition divides by the row norm with no epsilon
guard: a row with a nonzero entry has nonzero divisor, while an all-zero row
makes the divisor zero, so the direction computation divides by zero. -/
theorem decompose_no_eps_guard {m n : ℕ} (W : Fin m → Fin n → ℝ) :
    (∀ i, (∃ j, W i j ≠ 0) → WN.weight_magnitude W i 0 ≠ 0) ∧
    (∀ i, (∀ j, W i j = 0) →
      WN.weight_magnitude W i 0 = 0 ∧
      ∀ j, WN.weight_direction W i j = W i j / 0) := by
  refine ⟨fun i h => (wn_mag_pos W i 0 h).ne', fun i h => ?_⟩
  have hmag : WN.weight_magnitude W i 0 = 0 := by
    simp [WN.weight_magnitude, h]
  exact ⟨hmag, fun j => by simp only [WN.weight_direction]; rw [hmag]⟩

/-- Witness for C10: a `1×1` all-ones row has nonzero divisor; a `1×1`
all-zero row yields a zero divisor. -/
theorem decompose_no_eps_guard_witness :
    WN.weight_magnitude w1 0 0 ≠ 0 ∧
    WN.weight_magnitude (fun (_ : Fin 1) (_ : Fin 1) => (0 : ℝ)) 0 0 = 0 :=
  ⟨(decompose_no_eps_guard w1).1 0 ⟨0, one_ne_zero⟩,
   ((decompose_no_eps_guard (fun _ _ => (0 : ℝ))).2 0 (fun _ => rfl)).1⟩
